import Mathlib

/-!
Shallow embedding of the two components of the repository
`Cool_Python_Projects`:

* `simple_budget_tracker/tracker.py` — the transaction store
  (`Transaction`, `BudgetTracker`: `load`, `save`, `add`,
  `list_transactions`, `summary_by_category`, `balance`);
* `Dice_Coin_Game.py` — the randomness reporter
  (`coin_counts`, `dice_counts`, `text_histogram`, `summary_stats`,
  `expected_report`).

Modelling conventions:

* Python `float` values are carried as `ℚ`.  Where only the represented
  values matter (parsing, storage round-trips) they are used exactly;
  where the program's IEEE binary64 arithmetic matters (`balance`,
  `summary_by_category` accumulation, histogram bar widths), each
  arithmetic step is wrapped in `fl64`, the round-to-nearest-ties-to-even
  rounding of a rational to 53 significant bits (`addF`, `mulF`, `divF`,
  `sumF`).  Exponent over/underflow is out of range for every value
  handled here, so `fl64` models only the significand rounding.
* Python `dict` is modelled as an insertion-ordered association list
  (`List (α × β)`), with lookup/update parametrised by the key equality
  the Python runtime would use.
* Randomness (`random.choice`, `random.randint`) is modelled as an
  explicit stream `Nat → α` of drawn values, constrained by the
  documented range contract of the library routine.
* Python exceptions are modelled by an error type recording the class of
  the raised exception; fallible code returns `Except`.
-/

/-! ### Python dict as an insertion-ordered association list -/

/-- Lookup in a Python dict built by repeated item assignment: the value of
the first (unique) entry whose key is equal under `beq`.  `none` models a
`KeyError` on subscript access. -/
def dictGet? (beq : α → α → Bool) : List (α × β) → α → Option β
  | [], _ => none
  | (k', v) :: rest, k => if beq k' k then some v else dictGet? beq rest k

/-- Python `d.get(k, dflt)`. -/
def dictGetD (beq : α → α → Bool) (d : List (α × β)) (k : α) (dflt : β) : β :=
  (dictGet? beq d k).getD dflt

/-- Python `d[k] = v`: if the key is present the value is updated in place
(keeping the entry's position and original key object), otherwise the new
entry is appended, preserving insertion order. -/
def dictSet (beq : α → α → Bool) : List (α × β) → α → β → List (α × β)
  | [], k, v => [(k, v)]
  | (k', v') :: rest, k, v =>
      if beq k' k then (k', v) :: rest else (k', v') :: dictSet beq rest k v

/-- Python `list(d.keys())` (iteration order = insertion order). -/
def dictKeys (d : List (α × β)) : List α := d.map Prod.fst

/-- Python `list(d.values())` (iteration order = insertion order). -/
def dictValues (d : List (α × β)) : List β := d.map Prod.snd

theorem dictKeys_set_of_mem (beq : α → α → Bool) (d : List (α × β)) (k : α) (v : β)
    (h : (dictGet? beq d k).isSome) : dictKeys (dictSet beq d k v) = dictKeys d := by
  induction d with
  | nil => simp [dictGet?] at h
  | cons hd tl ih =>
      obtain ⟨k', v'⟩ := hd
      by_cases hk : beq k' k
      · simp [dictSet, dictKeys, hk]
      · simp only [dictGet?, hk, if_false] at h
        simp [dictSet, dictKeys, hk, ih h]
        exact ih h

theorem dictGet?_isSome_of_set (beq : α → α → Bool) (d : List (α × β)) (k k₀ : α) (v : β)
    (h : (dictGet? beq d k₀).isSome) : (dictGet? beq (dictSet beq d k v) k₀).isSome := by
  induction d with
  | nil => simp [dictGet?] at h
  | cons hd tl ih =>
      obtain ⟨k', v'⟩ := hd
      by_cases hk : beq k' k
      · by_cases hk₀ : beq k' k₀
        · simp [dictSet, dictGet?, hk, hk₀]
        · simp only [dictGet?, hk₀] at h
          simp only [Bool.false_eq_true, if_false] at h
          simp [dictSet, dictGet?, hk, hk₀, h]
      · by_cases hk₀ : beq k' k₀
        · simp [dictSet, dictGet?, hk, hk₀]
        · simp only [dictGet?, hk₀] at h
          simp only [Bool.false_eq_true, if_false] at h
          simp [dictSet, dictGet?, hk, hk₀]
          exact ih h

/-- Updating the value at a present key changes the sum of the values by the
difference between the new value and the looked-up one. -/
theorem dictValues_sum_set (beq : α → α → Bool) (d : List (α × ℚ)) (k : α) (v v₀ : ℚ)
    (h : dictGet? beq d k = some v₀) :
    (dictValues (dictSet beq d k v)).sum = (dictValues d).sum - v₀ + v := by
  induction d with
  | nil => simp [dictGet?] at h
  | cons hd tl ih =>
      obtain ⟨k', v'⟩ := hd
      by_cases hk : beq k' k
      · simp only [dictGet?, hk, if_true, Option.some.injEq] at h
        subst h
        simp [dictSet, dictValues, hk]
        ring
      · simp only [dictGet?, hk] at h
        simp only [Bool.false_eq_true, if_false] at h
        have htl := ih h
        simp only [dictValues] at htl
        simp [dictSet, dictValues, hk, htl]
        ring

/-- Nat-valued variant of `dictValues_sum_set` for count tables: bumping a
present key's count by one bumps the total count by one. -/
theorem dictValues_sum_set_succ (beq : α → α → Bool) (d : List (α × ℕ)) (k : α) (v₀ : ℕ)
    (h : dictGet? beq d k = some v₀) :
    (dictValues (dictSet beq d k (v₀ + 1))).sum = (dictValues d).sum + 1 := by
  induction d with
  | nil => simp [dictGet?] at h
  | cons hd tl ih =>
      obtain ⟨k', v'⟩ := hd
      by_cases hk : beq k' k
      · simp only [dictGet?, hk, if_true, Option.some.injEq] at h
        subst h
        simp [dictSet, dictValues, hk]
        omega
      · simp only [dictGet?, hk] at h
        simp only [Bool.false_eq_true, if_false] at h
        have htl := ih h
        simp only [dictValues] at htl
        simp [dictSet, dictValues, hk, htl]
        omega

/-! ### JSON values

The abstract syntax of JSON documents, as produced by `json.loads` and
consumed by `json.dumps`.  The textual (de)serialisation itself is the
standard library's; the file model below tracks whether the stored text is
well-formed JSON and, when it is, which value it denotes. -/

inductive Json where
  | null
  | bool (b : Bool)
  | num (q : ℚ)
  | str (s : String)
  | arr (items : List Json)
  | obj (fields : List (String × Json))

mutual

/-- Structural equality of JSON values, modelling Python `==` on the
objects `json.loads` returns (used when such values serve as dict keys). -/
def Json.beq : Json → Json → Bool
  | .null, .null => true
  | .bool a, .bool b => a == b
  | .num a, .num b => a == b
  | .str a, .str b => a == b
  | .arr a, .arr b => Json.beqArr a b
  | .obj a, .obj b => Json.beqObj a b
  | _, _ => false

/-- Elementwise `Json.beq` on arrays. -/
def Json.beqArr : List Json → List Json → Bool
  | [], [] => true
  | x :: xs, y :: ys => Json.beq x y && Json.beqArr xs ys
  | _, _ => false

/-- Pairwise `Json.beq` on object field lists. -/
def Json.beqObj : List (String × Json) → List (String × Json) → Bool
  | [], [] => true
  | (k1, v1) :: xs, (k2, v2) :: ys => k1 == k2 && Json.beq v1 v2 && Json.beqObj xs ys
  | _, _ => false

end

/-! ### Python exceptions raised by the tracker's load path -/

/-- The exceptions the tracker's `load` path can raise, by Python class:
`json.JSONDecodeError` from `json.loads`, `KeyError` from a missing dict
key, `ValueError` from `float(...)`/`date.fromisoformat(...)`, and
`TypeError` from subscripting or converting a value of the wrong type. -/
inductive PyExc where
  | jsonDecodeError
  | keyError (key : String)
  | valueError
  | typeError
  deriving DecidableEq, Repr

/-- The name of the Python exception class, as a caller's
`except SomeClass:` clause would identify it. -/
def PyExc.className : PyExc → String
  | .jsonDecodeError => "json.JSONDecodeError"
  | .keyError _ => "KeyError"
  | .valueError => "ValueError"
  | .typeError => "TypeError"

/-! ### Calendar dates (`datetime.date`)

`datetime.date` objects always hold a valid Gregorian calendar date with
`1 <= year <= 9999`; `isoformat` renders `YYYY-MM-DD` and `fromisoformat`
parses exactly that shape, validating the ranges. -/

structure DateYMD where
  year : ℕ
  month : ℕ
  day : ℕ
  deriving DecidableEq, Repr

/-- Gregorian leap-year rule, as in `calendar.isleap` / `datetime`. -/
def isLeapYear (y : ℕ) : Bool :=
  y % 4 == 0 && (y % 100 != 0 || y % 400 == 0)

/-- Days in a month of the Gregorian calendar. -/
def daysInMonth (y m : ℕ) : ℕ :=
  if m == 2 then (if isLeapYear y then 29 else 28)
  else if m == 4 || m == 6 || m == 9 || m == 11 then 30
  else 31

/-- The invariant every constructed `datetime.date` satisfies. -/
def DateYMD.valid (d : DateYMD) : Prop :=
  1 ≤ d.year ∧ d.year ≤ 9999 ∧ 1 ≤ d.month ∧ d.month ≤ 12 ∧
    1 ≤ d.day ∧ d.day ≤ daysInMonth d.year d.month

instance (d : DateYMD) : Decidable d.valid := by
  unfold DateYMD.valid
  infer_instance

/-- The ASCII digit character for `n % 10`. -/
def digitChar10 (n : ℕ) : Char := Char.ofNat (48 + n % 10)

/-- The value of an ASCII digit character, `none` otherwise. -/
def charDigit? (c : Char) : Option ℕ :=
  if 48 ≤ c.toNat ∧ c.toNat ≤ 57 then some (c.toNat - 48) else none

/-- `date.isoformat()`: the ten characters `YYYY-MM-DD`, zero padded. -/
def isoChars (d : DateYMD) : List Char :=
  [digitChar10 (d.year / 1000), digitChar10 (d.year / 100),
   digitChar10 (d.year / 10), digitChar10 d.year, '-',
   digitChar10 (d.month / 10), digitChar10 d.month, '-',
   digitChar10 (d.day / 10), digitChar10 d.day]

/-- `date.isoformat()` as a Python string. -/
def dateIsoformat (d : DateYMD) : String := String.mk (isoChars d)

/-- `date.fromisoformat` on the canonical `YYYY-MM-DD` shape: ten
characters, digits in the date positions, `-` separators, and the
year/month/day ranges a `datetime.date` enforces; anything else raises
`ValueError`. -/
def parseIsoChars : List Char → Except PyExc DateYMD
  | [y1, y2, y3, y4, s1, m1, m2, s2, d1, d2] =>
      match charDigit? y1, charDigit? y2, charDigit? y3, charDigit? y4,
          charDigit? m1, charDigit? m2, charDigit? d1, charDigit? d2 with
      | some a, some b, some c, some d, some e, some f, some g, some h =>
          if s1 = '-' ∧ s2 = '-' then
            let year := 1000 * a + 100 * b + 10 * c + d
            let month := 10 * e + f
            let day := 10 * g + h
            if 1 ≤ year ∧ 1 ≤ month ∧ month ≤ 12 ∧ 1 ≤ day ∧
                day ≤ daysInMonth year month then
              .ok ⟨year, month, day⟩
            else .error .valueError
          else .error .valueError
      | _, _, _, _, _, _, _, _ => .error .valueError
  | _ => .error .valueError

/-- `date.fromisoformat` on a Python string. -/
def dateFromIsoformat (s : String) : Except PyExc DateYMD :=
  parseIsoChars s.data

theorem charDigit?_digitChar10 (n : ℕ) : charDigit? (digitChar10 n) = some (n % 10) := by
  have h10 : n % 10 < 10 := Nat.mod_lt _ (by omega)
  have hv : (48 + n % 10).isValidChar := Or.inl (by omega)
  have ht : (digitChar10 n).toNat = 48 + n % 10 := by
    simp [digitChar10, Char.ofNat, hv, Char.toNat, Char.ofNatAux, UInt32.toNat,
      BitVec.toNat_ofNatLt]
  simp only [charDigit?, ht]
  rw [if_pos (by omega)]
  congr 1
  omega

/-- Parsing inverts printing on every valid date. -/
theorem parseIso_isoChars (d : DateYMD) (h : d.valid) :
    parseIsoChars (isoChars d) = .ok d := by
  obtain ⟨y, mo, da⟩ := d
  simp only [DateYMD.valid] at h
  obtain ⟨hy1, hy2, hm1, hm2, hd1, hd2⟩ := h
  simp only [isoChars, parseIsoChars, charDigit?_digitChar10]
  have hdm : daysInMonth y mo ≤ 31 := by
    unfold daysInMonth
    split_ifs <;> omega
  have ey : 1000 * (y / 1000 % 10) + 100 * (y / 100 % 10) +
      10 * (y / 10 % 10) + y % 10 = y := by omega
  have em : 10 * (mo / 10 % 10) + mo % 10 = mo := by omega
  have ed : 10 * (da / 10 % 10) + da % 10 = da := by omega
  rw [ey, em, ed]
  simp [hy1, hm1, hm2, hd1, hd2]

/-! ### Python `float(...)` on strings

`Transaction.from_dict` calls `float(payload["amount"])`.  On strings,
`float` strips surrounding whitespace and parses a signed decimal literal
with optional fraction and exponent.  (Python additionally accepts
`inf`/`nan` and digit-group underscores; non-finite values are outside the
spec's data model — amounts are finite signed decimals — and never arise
here.) -/

/-- Leading decimal digits of a character list, with the rest. -/
def takeDigits : List Char → (List ℕ × List Char)
  | [] => ([], [])
  | c :: cs =>
      match charDigit? c with
      | some d =>
          let p := takeDigits cs
          (d :: p.1, p.2)
      | none => ([], c :: cs)

/-- The number denoted by a list of decimal digits, most significant first. -/
def digitsToNat (ds : List ℕ) : ℕ := ds.foldl (fun a d => 10 * a + d) 0

/-- Strip leading and trailing whitespace. -/
def trimWS (l : List Char) : List Char :=
  ((l.dropWhile Char.isWhitespace).reverse.dropWhile Char.isWhitespace).reverse

/-- Parse the exponent digits; `pos` is the sign of the exponent. -/
def parseExpDigits (r : List Char) (mant : ℚ) (pos : Bool) : Option ℚ :=
  let p := takeDigits r
  if p.1 = [] ∨ p.2 ≠ [] then none
  else if pos then some (mant * (10 : ℚ) ^ digitsToNat p.1)
  else some (mant / (10 : ℚ) ^ digitsToNat p.1)

/-- Parse the optional exponent part and require the input be exhausted. -/
def parseExpTail (r : List Char) (mant : ℚ) : Option ℚ :=
  match r with
  | '+' :: r' => parseExpDigits r' mant true
  | '-' :: r' => parseExpDigits r' mant false
  | r' => parseExpDigits r' mant true

/-- After the mantissa: end of input, or an `e`/`E` exponent. -/
def parseExp (l : List Char) (mant : ℚ) : Option ℚ :=
  match l with
  | [] => some mant
  | 'e' :: r => parseExpTail r mant
  | 'E' :: r => parseExpTail r mant
  | _ => none

/-- Unsigned decimal literal: `digits [. digits] [exp]` or `. digits [exp]`,
with at least one digit overall. -/
def parseUnsigned (l : List Char) : Option ℚ :=
  let ip := takeDigits l
  match ip.2 with
  | '.' :: r =>
      let fp := takeDigits r
      if ip.1 = [] ∧ fp.1 = [] then none
      else parseExp fp.2
        ((digitsToNat ip.1 : ℚ) + (digitsToNat fp.1 : ℚ) / (10 : ℚ) ^ fp.1.length)
  | rest =>
      if ip.1 = [] then none
      else parseExp rest (digitsToNat ip.1 : ℚ)

/-- Python `float(s)` on a string: `none` models the `ValueError` raised on
a non-parseable literal. -/
def parseFloatChars (l : List Char) : Option ℚ :=
  match trimWS l with
  | '+' :: r => parseUnsigned r
  | '-' :: r => (parseUnsigned r).map Neg.neg
  | r => parseUnsigned r

/-! ### The transaction record (`tracker.py`, `Transaction`) -/

/-- `Transaction` (`@dataclass(frozen=True)`): an immutable record.  The
`description` and `category` fields are held exactly as `from_dict`
receives them (Python performs no type validation on them); `amount` is the
parsed float; `posted_on` the parsed date. -/
structure Transaction where
  description : Json
  amount : ℚ
  category : Json
  posted_on : DateYMD

/-- Python `float(x)` on a JSON-decoded value: numbers pass through
unchanged, strings go through the literal parser (`ValueError` on
failure), booleans coerce to `1.0`/`0.0`, everything else raises
`TypeError`. -/
def pyFloat : Json → Except PyExc ℚ
  | .num q => .ok q
  | .str s =>
      match parseFloatChars s.data with
      | some q => .ok q
      | none => .error .valueError
  | .bool b => .ok (if b then 1 else 0)
  | .null => .error .typeError
  | .arr _ => .error .typeError
  | .obj _ => .error .typeError

/-- `date.fromisoformat(x)`: requires a string (`TypeError` otherwise),
then parses it (`ValueError` on malformed input). -/
def pyFromIso : Json → Except PyExc DateYMD
  | .str s => dateFromIsoformat s
  | _ => .error .typeError

/-- Lookup in a dict produced by `json.loads`: on duplicate keys in the
source text the later field wins, as in Python's dict construction. -/
def objGet? (fields : List (String × Json)) (k : String) : Option Json :=
  fields.foldl (fun acc kv => if kv.1 = k then some kv.2 else acc) none

/-- Python `payload[k]` on a dict: `KeyError` when the key is absent. -/
def pyIndex (fields : List (String × Json)) (k : String) : Except PyExc Json :=
  match objGet? fields k with
  | some v => .ok v
  | none => .error (.keyError k)

/-- `Transaction.from_dict(payload)`.  Subscripting a non-dict raises
`TypeError`; the field accesses and conversions happen in the order the
keyword arguments are written in the source. -/
def Transaction.from_dict : Json → Except PyExc Transaction
  | .obj fields =>
      match pyIndex fields "description" with
      | .error e => .error e
      | .ok description =>
          match pyIndex fields "amount" with
          | .error e => .error e
          | .ok amountJ =>
              match pyFloat amountJ with
              | .error e => .error e
              | .ok amount =>
                  match pyIndex fields "category" with
                  | .error e => .error e
                  | .ok category =>
                      match pyIndex fields "posted_on" with
                      | .error e => .error e
                      | .ok postedJ =>
                          match pyFromIso postedJ with
                          | .error e => .error e
                          | .ok posted => .ok ⟨description, amount, category, posted⟩
  | _ => .error .typeError

/-- `Transaction.to_dict()`: `asdict(self)` (fields in declaration order)
with `posted_on` replaced by its ISO rendering. -/
def Transaction.to_dict (t : Transaction) : Json :=
  .obj [("description", t.description), ("amount", .num t.amount),
        ("category", t.category), ("posted_on", .str (dateIsoformat t.posted_on))]

/-! ### The storage file and `BudgetTracker` -/

/-- The text content of the storage file, abstracted by whether it is
well-formed JSON: `json.dumps`/`json.loads` (the standard library's
serializer, out of scope per the spec) are faithful on well-formed
documents, so a well-formed file is tracked by the JSON value it denotes
and a malformed one only by its raw text. -/
inductive JsonDoc where
  | invalidText (raw : String)
  | value (j : Json)

/-- The storage file: `self._storage_path.exists()` distinguishes `absent`
from `stored`. -/
inductive FileState where
  | absent
  | stored (doc : JsonDoc)

/-- `json.loads(text)`: raises `json.JSONDecodeError` on malformed text. -/
def jsonLoads : JsonDoc → Except PyExc Json
  | .invalidText _ => .error .jsonDecodeError
  | .value j => .ok j

/-- Python iteration over the decoded document (`for item in payload`):
arrays yield their items, dicts their keys, strings their characters;
other values raise `TypeError`. -/
def pyIterJson : Json → Except PyExc (List Json)
  | .arr items => .ok items
  | .obj fields => .ok (fields.map (fun kv => .str kv.1))
  | .str s => .ok (s.data.map (fun c => .str (String.mk [c])))
  | .null => .error .typeError
  | .bool _ => .error .typeError
  | .num _ => .error .typeError

/-- The list comprehension `[Transaction.from_dict(item) for item in
payload]`: items converted left to right, the first failure propagating as
the raised exception. -/
def loadItems : List Json → Except PyExc (List Transaction)
  | [] => .ok []
  | item :: rest =>
      match Transaction.from_dict item with
      | .error e => .error e
      | .ok tx =>
          match loadItems rest with
          | .error e => .error e
          | .ok txs => .ok (tx :: txs)

/-- `BudgetTracker.load()`: absent file ⇒ empty list; otherwise parse the
file and convert every record. -/
def loadTransactions (file : FileState) : Except PyExc (List Transaction) :=
  match file with
  | .absent => .ok []
  | .stored doc =>
      match jsonLoads doc with
      | .error e => .error e
      | .ok payload =>
          match pyIterJson payload with
          | .error e => .error e
          | .ok items => loadItems items

/-- The JSON document `BudgetTracker.save()` serializes. -/
def saveJson (txs : List Transaction) : Json := .arr (txs.map Transaction.to_dict)

/-- The storage file after `BudgetTracker.save()`: the whole file is
rewritten with the serialized sequence. -/
def saveFile (txs : List Transaction) : FileState := .stored (.value (saveJson txs))

/-- The in-memory state of a `BudgetTracker` (the `_transactions` list). -/
structure BudgetTracker where
  transactions : List Transaction

/-- `BudgetTracker.add(transaction)`: append to the in-memory sequence. -/
def BudgetTracker.add (t : BudgetTracker) (tx : Transaction) : BudgetTracker :=
  ⟨t.transactions ++ [tx]⟩

/-- `BudgetTracker.balance()`: `sum(transaction.amount for transaction in
self._transactions)` — a left fold of `+` over the amounts starting from 0. -/
def BudgetTracker.balance (t : BudgetTracker) : ℚ :=
  (t.transactions.map Transaction.amount).foldl (· + ·) 0

/-- `BudgetTracker.summary_by_category()`: fold over the transactions,
accumulating `summary.get(category, 0.0) + amount` into an
insertion-ordered dict keyed by the category value. -/
def BudgetTracker.summary_by_category (t : BudgetTracker) : List (Json × ℚ) :=
  t.transactions.foldl
    (fun s tx => dictSet Json.beq s tx.category (dictGetD Json.beq s tx.category 0 + tx.amount))
    []

theorem from_dict_to_dict (t : Transaction) (h : t.posted_on.valid) :
    Transaction.from_dict (Transaction.to_dict t) = .ok t := by
  obtain ⟨desc, amt, cat, pd⟩ := t
  simp [Transaction.to_dict, Transaction.from_dict, pyIndex, objGet?,
    pyFloat, pyFromIso, dateFromIsoformat, dateIsoformat, parseIso_isoChars pd h]

theorem load_saveFile (txs : List Transaction)
    (h : ∀ tx ∈ txs, tx.posted_on.valid) :
    loadTransactions (saveFile txs) = .ok txs := by
  simp only [loadTransactions, saveFile, saveJson, jsonLoads, pyIterJson]
  induction txs with
  | nil => rfl
  | cons hd tl ih =>
      have hhd : hd.posted_on.valid := h hd (List.mem_cons_self hd tl)
      have htl := ih (fun tx htx => h tx (List.mem_cons_of_mem hd htx))
      simp only [List.map_cons, loadItems, from_dict_to_dict hd hhd, htl]

/-- C1: for every finite sequence of transactions held in the store,
`save()` followed by `load()` on a fresh store pointed at the same storage
file reproduces a sequence equal to the original — same length, same
description, amount, category and posted_on per position, in the same
order.  (The dates of stored transactions are valid calendar dates, the
invariant `datetime.date` construction enforces.) -/
theorem save_then_load_roundtrip (txs : List Transaction)
    (h : ∀ tx ∈ txs, tx.posted_on.valid) :
    loadTransactions (saveFile txs) = .ok txs :=
  load_saveFile txs h

/-- Witness for C1 at a concrete two-transaction store. -/
theorem save_then_load_roundtrip_witness :
    loadTransactions (saveFile
      [⟨.str "Paycheck", 2000, .str "salary", ⟨2024, 1, 1⟩⟩,
       ⟨.str "Coffee", -(9 / 2 : ℚ), .str "food", ⟨2024, 1, 5⟩⟩]) =
      .ok [⟨.str "Paycheck", 2000, .str "salary", ⟨2024, 1, 1⟩⟩,
           ⟨.str "Coffee", -(9 / 2 : ℚ), .str "food", ⟨2024, 1, 5⟩⟩] :=
  save_then_load_roundtrip _ (by intro tx htx; fin_cases htx <;> decide)

/-- C2 counterexample: on a storage file that exists but is not valid
JSON, `load()` raises `json.JSONDecodeError` — the code defines no
`MalformedStorage` error kind, and no exception class of the load path
bears that name. -/
theorem load_malformed_storage_counterexample :
    loadTransactions (.stored (.invalidText "not json")) = .error .jsonDecodeError ∧
      PyExc.className .jsonDecodeError ≠ "MalformedStorage" := by
  exact ⟨rfl, by decide⟩

theorem loadItems_error (items : List Json)
    (h : ∃ item ∈ items, ∃ e, Transaction.from_dict item = .error e) :
    ∃ e, loadItems items = .error e := by
  induction items with
  | nil => simp at h
  | cons hd tl ih =>
      cases hhd : Transaction.from_dict hd with
      | error e0 => exact ⟨e0, by simp [loadItems, hhd]⟩
      | ok tx =>
          obtain ⟨item, hmem, e, he⟩ := h
          rcases List.mem_cons.mp hmem with rfl | hmem'
          · rw [hhd] at he
            cases he
          · obtain ⟨e', he'⟩ := ih ⟨item, hmem', e, he⟩
            exact ⟨e', by simp [loadItems, hhd, he']⟩

/-- C2 (amended): when the storage file does not exist, `load()` succeeds
and leaves the store empty; when the file exists but is malformed,
`load()` fails — but with Python's stock exceptions
(`json.JSONDecodeError` for invalid JSON, `KeyError` for a record lacking
a required field, `ValueError` for a non-parseable amount or date, the
first failing record aborting the whole load), not with a distinct
`MalformedStorage` error kind, which the code never defines. -/
theorem load_failure_modes :
    (loadTransactions .absent = .ok []) ∧
    (∀ raw, loadTransactions (.stored (.invalidText raw)) = .error .jsonDecodeError) ∧
    (∀ fields, objGet? fields "description" = none →
      Transaction.from_dict (.obj fields) = .error (.keyError "description")) ∧
    (∀ fields d, objGet? fields "description" = some d →
      objGet? fields "amount" = none →
      Transaction.from_dict (.obj fields) = .error (.keyError "amount")) ∧
    (∀ fields d a, objGet? fields "description" = some d →
      objGet? fields "amount" = some a → pyFloat a = .error .valueError →
      Transaction.from_dict (.obj fields) = .error .valueError) ∧
    (∀ fields d a q c p, objGet? fields "description" = some d →
      objGet? fields "amount" = some a → pyFloat a = .ok q →
      objGet? fields "category" = some c →
      objGet? fields "posted_on" = some p → pyFromIso p = .error .valueError →
      Transaction.from_dict (.obj fields) = .error .valueError) ∧
    (∀ items, (∃ item ∈ items, ∃ e, Transaction.from_dict item = .error e) →
      ∃ e, loadTransactions (.stored (.value (.arr items))) = .error e) := by
  refine ⟨rfl, fun raw => rfl, ?_, ?_, ?_, ?_, ?_⟩
  · intro fields hdesc
    simp [Transaction.from_dict, pyIndex, hdesc]
  · intro fields d hdesc hamt
    simp [Transaction.from_dict, pyIndex, hdesc, hamt]
  · intro fields d a hdesc hamt hfl
    simp [Transaction.from_dict, pyIndex, hdesc, hamt, hfl]
  · intro fields d a q c p hdesc hamt hfl hcat hpd hiso
    simp [Transaction.from_dict, pyIndex, hdesc, hamt, hfl, hcat, hpd, hiso]
  · intro items h
    obtain ⟨e, he⟩ := loadItems_error items h
    exact ⟨e, by simp [loadTransactions, jsonLoads, pyIterJson, he]⟩

/-- Witness for C2 (amended) at concrete malformed records: an empty
record is missing `description`; a record whose amount is the
non-parseable string `"abc"` raises `ValueError`; a record with the
invalid date `2024-13-01` raises `ValueError`; an array containing a
failing record makes the whole load fail. -/
theorem load_failure_modes_witness :
    (Transaction.from_dict (.obj []) = .error (.keyError "description")) ∧
    (Transaction.from_dict (.obj [("description", .str "x"), ("amount", .str "abc")]) =
      .error .valueError) ∧
    (Transaction.from_dict (.obj [("description", .str "x"), ("amount", .num 1),
      ("category", .str "c"), ("posted_on", .str "2024-13-01")]) = .error .valueError) ∧
    (∃ e, loadTransactions (.stored (.value (.arr [.obj []]))) = .error e) :=
  ⟨load_failure_modes.2.2.1 [] rfl,
   load_failure_modes.2.2.2.2.1 _ (.str "x") (.str "abc") rfl rfl rfl,
   load_failure_modes.2.2.2.2.2.1 _ (.str "x") (.num 1) 1 (.str "c")
     (.str "2024-13-01") rfl rfl rfl rfl rfl rfl,
   load_failure_modes.2.2.2.2.2.2 [.obj []] ⟨.obj [], by simp, .keyError "description",
     load_failure_modes.2.2.1 [] rfl⟩⟩

theorem balance_eq_sum_amounts (t : BudgetTracker) :
    t.balance = (t.transactions.map Transaction.amount).sum := by
  rw [BudgetTracker.balance, List.sum_eq_foldl]

/-- C3: `balance()` returns exactly the sum of the `amount` field over all
transactions currently in the store, and `0.0` for a store containing no
transactions. -/
theorem balance_is_sum_of_amounts (t : BudgetTracker) :
    t.balance = (t.transactions.map Transaction.amount).sum ∧
      BudgetTracker.balance ⟨[]⟩ = 0 :=
  ⟨balance_eq_sum_amounts t, rfl⟩

theorem dictValues_sum_set_of_none (beq : α → α → Bool) (d : List (α × ℚ)) (k : α) (v : ℚ)
    (h : dictGet? beq d k = none) :
    (dictValues (dictSet beq d k v)).sum = (dictValues d).sum + v := by
  induction d with
  | nil => simp [dictSet, dictValues]
  | cons hd tl ih =>
      obtain ⟨k', v'⟩ := hd
      by_cases hk : beq k' k
      · simp [dictGet?, hk] at h
      · simp only [dictGet?, hk] at h
        simp only [Bool.false_eq_true, if_false] at h
        have htl := ih h
        simp only [dictValues] at htl
        simp [dictSet, dictValues, hk, htl]
        ring

/-- `summary[category] = summary.get(category, 0.0) + amount` adds exactly
`amount` to the total of the dict's values, whether or not the category is
already present. -/
theorem dictValues_sum_upsert (beq : α → α → Bool) (s : List (α × ℚ)) (k : α) (a : ℚ) :
    (dictValues (dictSet beq s k (dictGetD beq s k 0 + a))).sum = (dictValues s).sum + a := by
  cases h : dictGet? beq s k with
  | none =>
      rw [dictGetD, h, Option.getD_none, zero_add, dictValues_sum_set_of_none beq s k a h]
  | some v₀ =>
      rw [dictGetD, h, Option.getD_some, dictValues_sum_set beq s k _ v₀ h]
      ring

theorem summary_foldl_sum (l : List Transaction) (acc : List (Json × ℚ)) :
    (dictValues (l.foldl
      (fun s tx => dictSet Json.beq s tx.category (dictGetD Json.beq s tx.category 0 + tx.amount))
      acc)).sum = (dictValues acc).sum + (l.map Transaction.amount).sum := by
  induction l generalizing acc with
  | nil => simp
  | cons hd tl ih =>
      rw [List.foldl_cons, ih, dictValues_sum_upsert, List.map_cons, List.sum_cons]
      ring

/-- C4 (amended): with amounts modelled in exact arithmetic, summing the
values of the mapping returned by `summary_by_category()` over all its
categories yields exactly `balance()`.  Under the program's IEEE double
arithmetic the two sides can differ, because the two computations round
at different intermediate points (see
`summary_balance_double_counterexample`). -/
theorem summary_values_sum_to_balance (t : BudgetTracker) :
    (dictValues t.summary_by_category).sum = t.balance := by
  rw [BudgetTracker.summary_by_category, summary_foldl_sum, balance_eq_sum_amounts]
  simp [dictValues]

/-! ### Object identity for `list_transactions()` (C9)

`list_transactions` returns `list(self._transactions)`: a freshly
allocated list object whose contents copy the tracker's private list.  To
state that mutating the returned object cannot affect the store, Python
list objects are modelled explicitly as references into a heap. -/

/-- The part of the Python heap relevant here: list objects, addressed by
allocation order. -/
structure PyHeap where
  nextRef : ℕ
  contents : ℕ → List Transaction

/-- A `BudgetTracker` instance, holding the reference to its private
`_transactions` list. -/
structure TrackerObj where
  transactionsRef : ℕ

/-- Read a list object's contents. -/
def PyHeap.read (h : PyHeap) (r : ℕ) : List Transaction := h.contents r

/-- In-place mutation of a list object (`lst.append`, `lst.clear`,
slice assignment, …): replaces that object's contents, modelled by the
resulting contents `v`. -/
def PyHeap.write (h : PyHeap) (r : ℕ) (v : List Transaction) : PyHeap :=
  ⟨h.nextRef, fun r' => if r' = r then v else h.contents r'⟩

/-- Allocate a fresh list object holding `v`. -/
def PyHeap.alloc (h : PyHeap) (v : List Transaction) : PyHeap × ℕ :=
  (⟨h.nextRef + 1, fun r' => if r' = h.nextRef then v else h.contents r'⟩, h.nextRef)

/-- `BudgetTracker.list_transactions()`: `return list(self._transactions)`
— allocates a new list copying the private list's current contents and
returns (a reference to) it. -/
def listTransactionsOp (h : PyHeap) (t : TrackerObj) : PyHeap × ℕ :=
  h.alloc (h.read t.transactionsRef)

/-- C9: `list_transactions()` returns a copy of the current transaction
sequence in insertion order, and mutating the returned list (to any
contents `v`) leaves the store's internal sequence — and therefore the
results of subsequent `balance()`, `summary_by_category()` and
`list_transactions()` calls — unchanged.  The hypothesis is heap
well-formedness: the store's private list was allocated earlier. -/
theorem list_transactions_is_snapshot (h : PyHeap) (t : TrackerObj)
    (hwf : t.transactionsRef < h.nextRef) :
    ((listTransactionsOp h t).1.read (listTransactionsOp h t).2 =
        h.read t.transactionsRef) ∧
    ((listTransactionsOp h t).1.read t.transactionsRef = h.read t.transactionsRef) ∧
    (∀ v : List Transaction,
      (((listTransactionsOp h t).1.write (listTransactionsOp h t).2 v).read
          t.transactionsRef = h.read t.transactionsRef) ∧
      BudgetTracker.balance
          ⟨((listTransactionsOp h t).1.write (listTransactionsOp h t).2 v).read
            t.transactionsRef⟩ =
        BudgetTracker.balance ⟨h.read t.transactionsRef⟩ ∧
      BudgetTracker.summary_by_category
          ⟨((listTransactionsOp h t).1.write (listTransactionsOp h t).2 v).read
            t.transactionsRef⟩ =
        BudgetTracker.summary_by_category ⟨h.read t.transactionsRef⟩ ∧
      (listTransactionsOp ((listTransactionsOp h t).1.write (listTransactionsOp h t).2 v)
            t).1.read
          (listTransactionsOp ((listTransactionsOp h t).1.write (listTransactionsOp h t).2 v)
            t).2 = h.read t.transactionsRef) := by
  have hne : t.transactionsRef ≠ h.nextRef := Nat.ne_of_lt hwf
  refine ⟨by simp [listTransactionsOp, PyHeap.alloc, PyHeap.read], ?_, ?_⟩
  · simp [listTransactionsOp, PyHeap.alloc, PyHeap.read, hne]
  · intro v
    have hread : ((listTransactionsOp h t).1.write (listTransactionsOp h t).2 v).read
        t.transactionsRef = h.read t.transactionsRef := by
      simp [listTransactionsOp, PyHeap.alloc, PyHeap.read, PyHeap.write, hne]
    exact ⟨hread, by rw [hread], by rw [hread], by
      simp [listTransactionsOp, PyHeap.alloc, PyHeap.read, PyHeap.write, hne]⟩

/-- A concrete heap for the C9 witness: one allocated list holding one
transaction. -/
def demoHeap : PyHeap :=
  ⟨1, fun _ => [⟨.str "Coffee", 3, .str "food", ⟨2024, 1, 5⟩⟩]⟩

/-- The tracker instance of the C9 witness. -/
def demoTracker : TrackerObj := ⟨0⟩

/-- Witness for C9: emptying the list returned by `list_transactions()`
does not change the store's sequence. -/
theorem list_transactions_is_snapshot_witness :
    ((listTransactionsOp demoHeap demoTracker).1.write
        (listTransactionsOp demoHeap demoTracker).2 []).read
      demoTracker.transactionsRef = demoHeap.read demoTracker.transactionsRef :=
  ((list_transactions_is_snapshot demoHeap demoTracker (by decide)).2.2 []).1

/-! ### Randomness reporter (`Dice_Coin_Game.py`)

`random.choice`/`random.randint` are modelled as an explicit stream
`draw : ℕ → α` of drawn values, one per trial; the library contract (a
drawn value is always one of the candidates / within `[1, sides]`) is the
hypothesis of the theorems. -/

/-- One loop iteration `counts[k] += 1`: the subscript read raises
`KeyError` (`none`) if the key is absent, otherwise the entry is bumped in
place. -/
def countStep (beq : α → α → Bool) (d : List (α × ℕ)) (k : α) : Option (List (α × ℕ)) :=
  match dictGet? beq d k with
  | some v => some (dictSet beq d k (v + 1))
  | none => none

/-- The counting loop, processing trials `i, i+1, …, i+n-1` in order. -/
def countLoop (beq : α → α → Bool) (draw : ℕ → α) : ℕ → ℕ → List (α × ℕ) → Option (List (α × ℕ))
  | _, 0, d => some d
  | i, n + 1, d =>
      match countStep beq d (draw i) with
      | some d' => countLoop beq draw (i + 1) n d'
      | none => none

/-- `coin_counts(trials)`: start from `{"Heads": 0, "Tails": 0}` and bump
the drawn side once per trial. -/
def coin_counts (trials : ℕ) (draw : ℕ → String) : Option (List (String × ℕ)) :=
  countLoop (· == ·) draw 0 trials [("Heads", 0), ("Tails", 0)]

/-- `dice_counts(trials, sides)`: start from `{i: 0 for i in
range(1, sides + 1)}` and bump the drawn face once per trial. -/
def dice_counts (trials sides : ℕ) (draw : ℕ → ℕ) : Option (List (ℕ × ℕ)) :=
  countLoop (· == ·) draw 0 trials ((List.range' 1 sides).map (fun i => (i, 0)))

theorem countLoop_spec (beq : α → α → Bool) (draw : ℕ → α) (n : ℕ) :
    ∀ (i : ℕ) (d : List (α × ℕ)),
      (∀ j, i ≤ j → j < i + n → (dictGet? beq d (draw j)).isSome) →
      ∃ d', countLoop beq draw i n d = some d' ∧ dictKeys d' = dictKeys d ∧
        (dictValues d').sum = (dictValues d).sum + n := by
  induction n with
  | zero => intro i d _; exact ⟨d, rfl, rfl, by simp⟩
  | succ n ih =>
      intro i d h
      have h0 : (dictGet? beq d (draw i)).isSome := h i le_rfl (by omega)
      obtain ⟨v, hv⟩ := Option.isSome_iff_exists.mp h0
      have hstep : countStep beq d (draw i) = some (dictSet beq d (draw i) (v + 1)) := by
        simp [countStep, hv]
      have hrec := ih (i + 1) (dictSet beq d (draw i) (v + 1)) (by
        intro j hj1 hj2
        exact dictGet?_isSome_of_set beq d (draw i) (draw j) (v + 1)
          (h j (by omega) (by omega)))
      obtain ⟨d', hd', hkeys, hsum⟩ := hrec
      refine ⟨d', ?_, ?_, ?_⟩
      · simp [countLoop, hstep, hd']
      · rw [hkeys, dictKeys_set_of_mem beq d (draw i) (v + 1) h0]
      · rw [hsum, dictValues_sum_set_succ beq d (draw i) v hv]
        omega

theorem dictGet?_init_isSome (l : List ℕ) (k : ℕ) (hk : k ∈ l) :
    (dictGet? (· == ·) (l.map (fun a => (a, (0 : ℕ)))) k).isSome := by
  induction l with
  | nil => simp at hk
  | cons a tl ih =>
      by_cases ha : a = k
      · simp [dictGet?, ha]
      · rcases List.mem_cons.mp hk with rfl | hk'
        · exact absurd rfl ha
        · simp only [List.map_cons, dictGet?]
          have hb : (a == k) = false := beq_false_of_ne ha
          simp [hb, ih hk']

/-- C5: for every `trials ≥ 0`, every `sides ≥ 2` and every randomness
source respecting `random.randint(1, sides)`'s contract,
`dice_counts(trials, sides)` succeeds and returns a table whose key list
is exactly `1..sides` (zero-count outcomes included), whose counts are all
`≥ 0`, and whose counts sum to `trials`. -/
theorem dice_counts_spec (trials sides : ℕ) (draw : ℕ → ℕ) (hsides : 2 ≤ sides)
    (hdraw : ∀ i, 1 ≤ draw i ∧ draw i ≤ sides) :
    ∃ d, dice_counts trials sides draw = some d ∧
      dictKeys d = List.range' 1 sides ∧
      (dictValues d).sum = trials ∧
      ∀ c ∈ dictValues d, 0 ≤ c := by
  have hinit : ∀ j, 0 ≤ j → j < 0 + trials →
      (dictGet? (· == ·) ((List.range' 1 sides).map (fun i => (i, (0 : ℕ)))) (draw j)).isSome := by
    intro j _ _
    refine dictGet?_init_isSome _ _ ?_
    have h1 := (hdraw j).1
    have h2 := (hdraw j).2
    simp only [List.mem_range']
    exact ⟨draw j - 1, by omega, by omega⟩
  obtain ⟨d, hd, hkeys, hsum⟩ :=
    countLoop_spec (· == ·) draw trials 0 ((List.range' 1 sides).map (fun i => (i, 0))) hinit
  refine ⟨d, hd, ?_, ?_, fun c _ => Nat.zero_le c⟩
  · rw [hkeys]
    simp only [dictKeys, List.map_map]
    have hid : ∀ l : List ℕ, List.map (Prod.fst ∘ fun i => (i, (0 : ℕ))) l = l := by
      intro l
      induction l with
      | nil => rfl
      | cons a tl ih => simp only [List.map_cons, ih, Function.comp_apply]
    exact hid _
  · rw [hsum]
    have hz : (dictValues ((List.range' 1 sides).map (fun i => (i, (0 : ℕ))))).sum = 0 := by
      simp only [dictValues, List.map_map]
      induction (List.range' 1 sides) with
      | nil => rfl
      | cons a tl ih => simpa using ih
    omega

/-- Witness for C5: two trials of a two-sided die with a source that
always rolls 1. -/
theorem dice_counts_spec_witness :
    ∃ d, dice_counts 2 2 (fun _ => 1) = some d ∧
      dictKeys d = List.range' 1 2 ∧
      (dictValues d).sum = 2 ∧
      ∀ c ∈ dictValues d, 0 ≤ c :=
  dice_counts_spec 2 2 (fun _ => 1) (by omega) (fun _ => ⟨by simp, by simp⟩)

/-- C6: for every `trials ≥ 0` and every randomness source respecting
`random.choice(("Heads", "Tails"))`'s contract, `coin_counts(trials)`
succeeds and returns a table with exactly the two keys `"Heads"` and
`"Tails"`, both counts `≥ 0`, summing to `trials`. -/
theorem coin_counts_spec (trials : ℕ) (draw : ℕ → String)
    (hdraw : ∀ i, draw i = "Heads" ∨ draw i = "Tails") :
    ∃ h t, coin_counts trials draw = some [("Heads", h), ("Tails", t)] ∧
      h + t = trials ∧ 0 ≤ h ∧ 0 ≤ t := by
  have hinit : ∀ j, 0 ≤ j → j < 0 + trials →
      (dictGet? (· == ·) [("Heads", (0 : ℕ)), ("Tails", 0)] (draw j)).isSome := by
    intro j _ _
    rcases hdraw j with h | h <;> simp [dictGet?, h]
  obtain ⟨d, hd, hkeys, hsum⟩ :=
    countLoop_spec (· == ·) draw trials 0 [("Heads", 0), ("Tails", 0)] hinit
  simp only [dictKeys, dictValues] at hkeys hsum
  match d, hkeys with
  | [(k1, v1), (k2, v2)], hkeys =>
      simp only [List.map_cons, List.map_nil, List.cons.injEq, and_true] at hkeys
      obtain ⟨hk1, hk2⟩ := hkeys
      subst hk1
      subst hk2
      refine ⟨v1, v2, hd, ?_, Nat.zero_le v1, Nat.zero_le v2⟩
      simp only [List.map_cons, List.map_nil, List.sum_cons, List.sum_nil] at hsum
      omega

/-- Witness for C6: three coin flips from a source that always lands
heads. -/
theorem coin_counts_spec_witness :
    ∃ h t, coin_counts 3 (fun _ => "Heads") = some [("Heads", h), ("Tails", t)] ∧
      h + t = 3 ∧ 0 ≤ h ∧ 0 ≤ t :=
  coin_counts_spec 3 (fun _ => "Heads") (fun _ => Or.inl rfl)

/-! ### Python sorting

`list.sort()` / `sorted()` are stable comparison sorts; together with the
comparison they are extensionally determined: equal-comparing elements
keep their original relative order.  A stable insertion sort realises that
contract.  `insertRev lt a l` inserts `a` into the descending-sorted `l`,
passing over exactly the elements strictly greater than `a`, so earlier
input elements stay ahead of later equal-comparing ones — the semantics of
`sort(reverse=True)`; ascending `sorted()` is the same with the comparison
flipped. -/

def insertRev (lt : α → α → Bool) (a : α) : List α → List α
  | [] => [a]
  | b :: bs => if lt a b then b :: insertRev lt a bs else a :: b :: bs

def pySortRev (lt : α → α → Bool) : List α → List α
  | [] => []
  | a :: l => insertRev lt a (pySortRev lt l)

/-- Strict comparison `x < y` of a linearly ordered component, as Python's
rich comparison returns it. -/
def ltB [LinearOrder γ] (x y : γ) : Bool := decide (x < y)

/-- Python `sorted(...)`: ascending stable sort. -/
def pySortAsc [LinearOrder γ] (l : List γ) : List γ :=
  pySortRev (fun x y => ltB y x) l

/-- Python tuple comparison, one component at a time: compare the heads,
fall through to the tail comparison on a tie. -/
def pairLt [LinearOrder γ] (tail : β → β → Bool) (a b : γ × β) : Bool :=
  if a.1 < b.1 then true else if b.1 < a.1 then false else tail a.2 b.2

theorem insertRev_perm (lt : α → α → Bool) (a : α) (l : List α) :
    (insertRev lt a l).Perm (a :: l) := by
  induction l with
  | nil => exact List.Perm.refl _
  | cons b bs ih =>
      by_cases h : lt a b
      · simp only [insertRev, h, if_true]
        exact (ih.cons b).trans (List.Perm.swap a b bs)
      · simp [insertRev, h]

theorem pySortRev_perm (lt : α → α → Bool) (l : List α) : (pySortRev lt l).Perm l := by
  induction l with
  | nil => exact List.Perm.refl _
  | cons a tl ih => exact (insertRev_perm lt a (pySortRev lt tl)).trans (ih.cons a)

theorem insertRev_pairwise (lt : α → α → Bool)
    (hasym : ∀ x y, lt x y = true → lt y x = false)
    (htrans : ∀ x y z, lt x y = false → lt y z = false → lt x z = false)
    (a : α) (l : List α) (hl : l.Pairwise (fun x y => lt x y = false)) :
    (insertRev lt a l).Pairwise (fun x y => lt x y = false) := by
  induction l with
  | nil => simp [insertRev]
  | cons b bs ih =>
      rcases List.pairwise_cons.mp hl with ⟨hb, hbs⟩
      by_cases h : lt a b
      · simp only [insertRev, h, if_true]
        refine List.pairwise_cons.mpr ⟨?_, ih hbs⟩
        intro x hx
        rcases List.mem_cons.mp ((insertRev_perm lt a bs).mem_iff.mp hx) with rfl | hx'
        · exact hasym _ b h
        · exact hb x hx'
      · have hab : lt a b = false := by
          cases hcur : lt a b
          · rfl
          · exact absurd hcur h
        simp only [insertRev, h, if_false]
        refine List.pairwise_cons.mpr ⟨?_, hl⟩
        intro x hx
        rcases List.mem_cons.mp hx with rfl | hx'
        · exact hab
        · exact htrans a b x hab (hb x hx')

theorem pySortRev_pairwise (lt : α → α → Bool)
    (hasym : ∀ x y, lt x y = true → lt y x = false)
    (htrans : ∀ x y z, lt x y = false → lt y z = false → lt x z = false)
    (l : List α) : (pySortRev lt l).Pairwise (fun x y => lt x y = false) := by
  induction l with
  | nil => simp [pySortRev]
  | cons a tl ih => exact insertRev_pairwise lt hasym htrans a (pySortRev lt tl) ih

theorem pySortRev_length (lt : α → α → Bool) (l : List α) :
    (pySortRev lt l).length = l.length :=
  (pySortRev_perm lt l).length_eq

theorem ltB_asymm [LinearOrder γ] (x y : γ) (h : ltB x y = true) : ltB y x = false := by
  simp only [ltB, decide_eq_true_eq] at h
  simpa [ltB] using le_of_lt h

theorem ltB_notLt_trans [LinearOrder γ] (x y z : γ)
    (hxy : ltB x y = false) (hyz : ltB y z = false) : ltB x z = false := by
  simp only [ltB, decide_eq_false_iff_not, not_lt] at hxy hyz ⊢
  exact le_trans hyz hxy

theorem pairLt_asymm [LinearOrder γ] (tail : β → β → Bool)
    (htail : ∀ x y, tail x y = true → tail y x = false)
    (a b : γ × β) (h : pairLt tail a b = true) : pairLt tail b a = false := by
  unfold pairLt at h ⊢
  rcases lt_trichotomy a.1 b.1 with h1 | h1 | h1
  · rw [if_neg (lt_asymm h1), if_pos h1]
  · simp only [h1, lt_irrefl, if_false] at h ⊢
    exact htail _ _ h
  · rw [if_neg (lt_asymm h1), if_pos h1] at h
    exact absurd h (by simp)

theorem pairLt_notLt_trans [LinearOrder γ] (tail : β → β → Bool)
    (htail : ∀ x y z, tail x y = false → tail y z = false → tail x z = false)
    (a b c : γ × β) (hab : pairLt tail a b = false) (hbc : pairLt tail b c = false) :
    pairLt tail a c = false := by
  unfold pairLt at hab hbc ⊢
  have hba : ¬ a.1 < b.1 := by
    intro hlt
    simp [hlt] at hab
  have hcb : ¬ b.1 < c.1 := by
    intro hlt
    simp [hlt] at hbc
  have hac : ¬ a.1 < c.1 :=
    fun hlt => absurd hlt (not_lt.mpr (le_trans (not_lt.mp hcb) (not_lt.mp hba)))
  by_cases hca : c.1 < a.1
  · rw [if_neg hac, if_pos hca]
  · have e1 : a.1 = c.1 := le_antisymm (not_lt.mp hca) (not_lt.mp hac)
    have e2 : a.1 = b.1 := by
      rcases lt_or_le b.1 a.1 with hb1 | hb1
      · exact absurd (e1 ▸ hb1) hcb
      · exact le_antisymm hb1 (not_lt.mp hba)
    have hb2 : ¬ b.1 < a.1 := by rw [e2]; exact lt_irrefl _
    have hc2 : ¬ c.1 < b.1 := by rw [← e2]; exact hca
    rw [if_neg hba, if_neg hb2] at hab
    rw [if_neg hcb, if_neg hc2] at hbc
    rw [if_neg hac, if_neg hca]
    exact htail _ _ _ hab hbc

/-! ### IEEE-754 binary64 arithmetic

Python `float` is an IEEE-754 binary64; every arithmetic operation
computes the exact rational result and rounds it to 53 significant bits,
to nearest, ties to even.  `fl64` is that rounding on the values this
development manipulates: finite doubles in the normal range (magnitude
between `2 ^ (-1022)` and `2 ^ 1023`; subnormal underflow and overflow to
infinity never arise here, every magnitude in this file lying between
`2 ^ (-3)` and `2 ^ 54`).  Most claims are insensitive to rounding and
are stated over the exact values; where a claim's truth depends on the
rounding itself (the bar widths of `text_histogram`, the comparison of
two differently associated sums in the tracker), the double semantics is
used explicitly via `fl64`. -/

/-- Python `int(x)` on a float: truncation toward zero. -/
def pyIntTrunc (q : ℚ) : ℤ := Int.tdiv q.num (q.den : ℤ)

/-- `2 ^ z` as a rational, for an integer exponent. -/
def pow2 (z : ℤ) : ℚ := (2 : ℚ) ^ z

/-- Round a rational to the nearest integer, ties to even. -/
def roundHalfEven (m : ℚ) : ℤ :=
  let fl := Rat.floor m
  if m - fl < 1 / 2 then fl
  else if (1 : ℚ) / 2 < m - fl then fl + 1
  else if fl % 2 = 0 then fl else fl + 1

/-- Multiply by 2 until the value reaches `[1, 2)`, returning the scaled
value and the binary exponent; the fuel bounds the exponent range. -/
def scaleUp64 : ℕ → ℚ → ℚ × ℤ
  | 0, q => (q, 0)
  | f + 1, q =>
      if q < 1 then
        let p := scaleUp64 f (2 * q)
        (p.1, p.2 - 1)
      else (q, 0)

/-- Halve until the value drops into `[1, 2)`, returning the scaled value
and the binary exponent. -/
def scaleDown64 : ℕ → ℚ → ℚ × ℤ
  | 0, q => (q, 0)
  | f + 1, q =>
      if 2 ≤ q then
        let p := scaleDown64 f (q / 2)
        (p.1, p.2 + 1)
      else (q, 0)

/-- Binary64 rounding of an exact rational: write `|q| = s · 2 ^ e` with
`s ∈ [1, 2)`, round `s · 2 ^ 52` to the nearest integer (ties to even)
and reassemble.  Exact on zero and on every representable double. -/
def fl64 (q : ℚ) : ℚ :=
  if q = 0 then 0
  else
    let a := |q|
    let p := if a < 1 then scaleUp64 1100 a else scaleDown64 1100 a
    let m := roundHalfEven (p.1 * 2 ^ 52)
    let mag := (m : ℚ) * pow2 (p.2 - 52)
    if q < 0 then -mag else mag

/-- Python `x + y` on floats: exact sum, then binary64 rounding. -/
def addF (x y : ℚ) : ℚ := fl64 (x + y)

/-- Python `x * y` on floats. -/
def mulF (x y : ℚ) : ℚ := fl64 (x * y)

/-- Python `x / y` on floats (`y ≠ 0` at every call site here): true
division is correctly rounded. -/
def divF (x y : ℚ) : ℚ := fl64 (x / y)

/-- Python `sum(...)` over floats: left fold of float addition from `0`. -/
def sumF (l : List ℚ) : ℚ := l.foldl addF 0

/-- `BudgetTracker.balance()` with the source's IEEE double additions made
explicit: the same left fold as `balance`, each partial sum rounded. -/
def BudgetTracker.balance64 (t : BudgetTracker) : ℚ :=
  (t.transactions.map Transaction.amount).foldl addF 0

/-- `BudgetTracker.summary_by_category()` with the source's IEEE double
additions made explicit: `summary.get(category, 0.0) + amount` rounds. -/
def BudgetTracker.summary64 (t : BudgetTracker) : List (Json × ℚ) :=
  t.transactions.foldl
    (fun s tx =>
      dictSet Json.beq s tx.category (addF (dictGetD Json.beq s tx.category 0) tx.amount))
    []

theorem pow2_pos (z : ℤ) : 0 < pow2 z := by
  unfold pow2
  positivity

theorem pow2_of_nonneg (z : ℤ) (h : 0 ≤ z) : pow2 z = (2 : ℚ) ^ z.toNat := by
  rw [pow2, ← zpow_natCast (2 : ℚ) z.toNat, Int.toNat_of_nonneg h]

theorem pow2_of_neg (z : ℤ) (h : ¬ 0 ≤ z) : pow2 z = 1 / (2 : ℚ) ^ (-z).toNat := by
  obtain ⟨n, rfl⟩ : ∃ n : ℕ, z = -(n : ℤ) := ⟨(-z).toNat, by omega⟩
  rw [pow2, zpow_neg, zpow_natCast, inv_eq_one_div]
  simp

theorem ratFloor_eq_of (m : ℚ) (z : ℤ) (h1 : (z : ℚ) ≤ m) (h2 : m < z + 1) :
    Rat.floor m = z := by
  have hz : z ≤ Rat.floor m := Rat.le_floor.mpr h1
  have hz2 : ¬ (z + 1 ≤ Rat.floor m) := by
    intro hc
    have hle := Rat.le_floor.mp hc
    push_cast at hle
    linarith
  omega

theorem roundHalfEven_eq_of_lt_half (m : ℚ) (z : ℤ) (h1 : (z : ℚ) ≤ m)
    (h2 : m - z < 1 / 2) : roundHalfEven m = z := by
  have hz : Rat.floor m = z := ratFloor_eq_of m z h1 (by linarith)
  simp only [roundHalfEven, hz]
  rw [if_pos h2]

theorem roundHalfEven_eq_of_tie_even (m : ℚ) (z : ℤ) (h1 : (z : ℚ) ≤ m)
    (h2 : m - z = 1 / 2) (h3 : z % 2 = 0) : roundHalfEven m = z := by
  have hz : Rat.floor m = z := ratFloor_eq_of m z h1 (by rw [show m = z + 1/2 by linarith]; norm_num)
  simp only [roundHalfEven, hz]
  rw [if_neg (by rw [h2]; exact lt_irrefl _), if_neg (by rw [h2]; exact lt_irrefl _),
    if_pos h3]

theorem scaleDown64_eq (f e : ℕ) (q : ℚ) (he : e ≤ f) (h1 : (2 : ℚ) ^ e ≤ q)
    (h2 : q < (2 : ℚ) ^ (e + 1)) : scaleDown64 f q = (q / 2 ^ e, (e : ℤ)) := by
  induction e generalizing f q with
  | zero =>
      have hlt : ¬ (2 : ℚ) ≤ q := not_le.mpr (by simpa using h2)
      cases f with
      | zero => simp [scaleDown64]
      | succ f' => simp [scaleDown64, hlt]
  | succ e' ih =>
      cases f with
      | zero => omega
      | succ f' =>
          have h2e : (2 : ℚ) ≤ (2 : ℚ) ^ (e' + 1) := by
            calc (2 : ℚ) = 2 ^ 1 := (pow_one 2).symm
            _ ≤ 2 ^ (e' + 1) := pow_le_pow_right one_le_two (by omega)
          have hq2 : (2 : ℚ) ≤ q := le_trans h2e h1
          have hrec := ih f' (q / 2) (by omega)
            (by rw [le_div_iff (by norm_num)]; calc (2:ℚ)^e' * 2 = 2^(e'+1) := by ring
                _ ≤ q := h1)
            (by rw [div_lt_iff (by norm_num)]; calc q < 2^(e'+1+1) := h2
                _ = 2^(e'+1) * 2 := by ring)
          simp only [scaleDown64, hq2, if_true, hrec, Prod.mk.injEq]
          constructor
          · rw [div_div, ← pow_succ']
          · push_cast
            ring
theorem scaleUp64_eq (f e : ℕ) (q : ℚ) (he : e ≤ f) (h1 : 1 / (2 : ℚ) ^ e ≤ q)
    (h2 : q < 2 / (2 : ℚ) ^ e) : scaleUp64 f q = (q * 2 ^ e, -(e : ℤ)) := by
  induction e generalizing f q with
  | zero =>
      have hge : ¬ q < 1 := not_lt.mpr (by simpa using h1)
      cases f with
      | zero => simp [scaleUp64]
      | succ f' => simp [scaleUp64, hge]
  | succ e' ih =>
      cases f with
      | zero => omega
      | succ f' =>
          have hp : (0 : ℚ) < 2 ^ e' := by positivity
          have hq1 : q < 1 := by
            have hhalf : 2 / (2 : ℚ) ^ (e' + 1) ≤ 1 := by
              rw [div_le_one (by positivity)]
              calc (2 : ℚ) = 2 ^ 1 := (pow_one 2).symm
              _ ≤ 2 ^ (e' + 1) := pow_le_pow_right one_le_two (by omega)
            exact lt_of_lt_of_le h2 hhalf
          have hkey : (1 : ℚ) / 2 ^ e' = 2 * (1 / 2 ^ (e' + 1)) := by
            rw [pow_succ]
            have hne : (2 : ℚ) ^ e' ≠ 0 := by positivity
            field_simp
          have hkey2 : 2 / (2 : ℚ) ^ e' = 2 * (2 / 2 ^ (e' + 1)) := by
            rw [pow_succ]
            have hne : (2 : ℚ) ^ e' ≠ 0 := by positivity
            field_simp
            ring
          have hrec := ih f' (2 * q) (by omega)
            (by rw [hkey]; linarith)
            (by rw [hkey2]; linarith)
          simp only [scaleUp64, hq1, if_true, hrec, Prod.mk.injEq]
          constructor
          · rw [pow_succ]
            ring
          · push_cast
            ring

theorem fl64_eval_pos (q : ℚ) (e : ℤ) (hq : 0 < q) (hl : pow2 e ≤ q)
    (hu : q < 2 * pow2 e) (he : e.natAbs ≤ 1100) :
    fl64 q = (roundHalfEven (q / pow2 e * 2 ^ 52) : ℚ) * pow2 (e - 52) := by
  have hq0 : q ≠ 0 := ne_of_gt hq
  have hqneg : ¬ q < 0 := not_lt.mpr (le_of_lt hq)
  have habs : |q| = q := abs_of_pos hq
  rcases le_or_lt 0 e with he0 | he0
  · have h1le : (1 : ℚ) ≤ q := by
      refine le_trans ?_ hl
      rw [pow2_of_nonneg e he0]
      exact one_le_pow₀ one_le_two
    have hnlt : ¬ q < 1 := not_lt.mpr h1le
    have hsd := scaleDown64_eq 1100 e.toNat q (by omega)
      (by rw [pow2_of_nonneg e he0] at hl; exact hl)
      (by rw [pow2_of_nonneg e he0] at hu
          calc q < 2 * 2 ^ e.toNat := hu
          _ = 2 ^ (e.toNat + 1) := by ring)
    simp only [fl64, if_neg hq0, habs, hnlt, if_false, hsd, if_neg hqneg]
    rw [pow2_of_nonneg e he0]
    congr 2
    omega
  · have hlt1 : q < 1 := by
      have hp : pow2 e ≤ 1 / 2 := by
        rw [pow2_of_neg e (by omega)]
        have h1 : 1 ≤ (-e).toNat := by omega
        have : (2 : ℚ) ^ 1 ≤ 2 ^ (-e).toNat := pow_le_pow_right one_le_two h1
        rw [pow_one] at this
        rw [div_le_div_iff (by positivity) (by norm_num)]
        linarith
      calc q < 2 * pow2 e := hu
      _ ≤ 2 * (1 / 2) := by linarith
      _ = 1 := by norm_num
    have hsu := scaleUp64_eq 1100 (-e).toNat q (by omega)
      (by rw [pow2_of_neg e (by omega)] at hl; exact hl)
      (by rw [pow2_of_neg e (by omega)] at hu
          calc q < 2 * (1 / 2 ^ (-e).toNat) := hu
          _ = 2 / 2 ^ (-e).toNat := by ring)
    simp only [fl64, if_neg hq0, habs, hlt1, if_true, hsu, if_neg hqneg]
    have hdiv : q * 2 ^ (-e).toNat = q / pow2 e := by
      rw [pow2_of_neg e (by omega)]
      field_simp
    rw [hdiv]
    congr 2
    omega

theorem fl64_eq_of (q : ℚ) (e z : ℤ) (hq : 0 < q) (hl : pow2 e ≤ q)
    (hu : q < 2 * pow2 e) (he : e.natAbs ≤ 1100)
    (h1 : (z : ℚ) ≤ q / pow2 e * 2 ^ 52) (h2 : q / pow2 e * 2 ^ 52 - z < 1 / 2) :
    fl64 q = (z : ℚ) * pow2 (e - 52) := by
  rw [fl64_eval_pos q e hq hl hu he, roundHalfEven_eq_of_lt_half _ z h1 h2]

theorem fl64_eq_of_tie_even (q : ℚ) (e z : ℤ) (hq : 0 < q) (hl : pow2 e ≤ q)
    (hu : q < 2 * pow2 e) (he : e.natAbs ≤ 1100)
    (h1 : (z : ℚ) ≤ q / pow2 e * 2 ^ 52) (h2 : q / pow2 e * 2 ^ 52 - z = 1 / 2)
    (h3 : z % 2 = 0) : fl64 q = (z : ℚ) * pow2 (e - 52) := by
  rw [fl64_eval_pos q e hq hl hu he, roundHalfEven_eq_of_tie_even _ z h1 h2 h3]

theorem fl64_zero : fl64 0 = 0 := by
  simp [fl64]

theorem fl64_one : fl64 (1 : ℚ) = 1 := by
  have h := fl64_eq_of 1 0 4503599627370496 one_pos (by norm_num [pow2])
    (by norm_num [pow2]) (by norm_num) (by norm_num [pow2]) (by norm_num [pow2])
  rw [h]
  norm_num [pow2]

theorem fl64_twentytwo : fl64 (22 : ℚ) = 22 := by
  have h := fl64_eq_of 22 4 6192449487634432 (by norm_num) (by norm_num [pow2])
    (by norm_num [pow2]) (by norm_num) (by norm_num [pow2]) (by norm_num [pow2])
  rw [h]
  norm_num [pow2]

theorem fl64_ten16 : fl64 (10000000000000000 : ℚ) = 10000000000000000 := by
  have h := fl64_eq_of 10000000000000000 53 5000000000000000 (by norm_num)
    (by norm_num [pow2]) (by norm_num [pow2]) (by norm_num) (by norm_num [pow2])
    (by norm_num [pow2])
  rw [h]
  norm_num [pow2]

theorem fl64_ten16_succ : fl64 (10000000000000001 : ℚ) = 10000000000000000 := by
  have h := fl64_eq_of_tie_even 10000000000000001 53 5000000000000000 (by norm_num)
    (by norm_num [pow2]) (by norm_num [pow2]) (by norm_num) (by norm_num [pow2])
    (by norm_num [pow2]) (by decide)
  rw [h]
  norm_num [pow2]

theorem fl64_fifteen_22nds : fl64 (15 / 22 : ℚ) = 6141272219141585 / 9007199254740992 := by
  have h := fl64_eq_of (15 / 22) (-1) 6141272219141585 (by norm_num)
    (by norm_num [pow2]) (by norm_num [pow2]) (by norm_num) (by norm_num [pow2])
    (by norm_num [pow2])
  rw [h]
  norm_num [pow2]

theorem fl64_near_fifteen :
    fl64 (135107988821114870 / 9007199254740992 : ℚ) =
      8444249301319679 / 562949953421312 := by
  have h := fl64_eq_of (135107988821114870 / 9007199254740992) 3 8444249301319679
    (by norm_num) (by norm_num [pow2]) (by norm_num [pow2]) (by norm_num)
    (by norm_num [pow2]) (by norm_num [pow2])
  rw [h]
  norm_num [pow2]

theorem pyIntTrunc_eq_of_nonneg (q : ℚ) (z : ℤ) (h0 : 0 ≤ q) (h1 : (z : ℚ) ≤ q)
    (h2 : q < z + 1) : pyIntTrunc q = z := by
  have hnum : 0 ≤ q.num := Rat.num_nonneg.mpr h0
  rw [pyIntTrunc, Int.tdiv_eq_ediv hnum (by positivity), ← Rat.floor_def']
  exact ratFloor_eq_of q z h1 h2

/-- C4 counterexample: on the three transactions `(A, 1e16)`, `(B, 1.0)`,
`(A, -1e16)` the program's `balance()` returns `0.0` — the `1.0` is
absorbed when added to `1e16` (round-to-nearest-even) and then cancelled —
while `summary_by_category()` accumulates per category, so its values
`{A: 0.0, B: 1.0}` sum to `1.0`. -/
theorem summary_balance_double_counterexample :
    BudgetTracker.balance64
      ⟨[⟨.str "Paycheck", 10000000000000000, .str "A", ⟨2024, 1, 1⟩⟩,
        ⟨.str "Tip", 1, .str "B", ⟨2024, 1, 2⟩⟩,
        ⟨.str "Refund", -10000000000000000, .str "A", ⟨2024, 1, 3⟩⟩]⟩ = 0 ∧
    sumF (dictValues (BudgetTracker.summary64
      ⟨[⟨.str "Paycheck", 10000000000000000, .str "A", ⟨2024, 1, 1⟩⟩,
        ⟨.str "Tip", 1, .str "B", ⟨2024, 1, 2⟩⟩,
        ⟨.str "Refund", -10000000000000000, .str "A", ⟨2024, 1, 3⟩⟩]⟩)) = 1 ∧
    (0 : ℚ) ≠ 1 := by
  have h1 : addF 0 (10000000000000000 : ℚ) = 10000000000000000 := by
    rw [addF, show (0 : ℚ) + 10000000000000000 = 10000000000000000 by ring]
    exact fl64_ten16
  have h2 : addF (10000000000000000 : ℚ) 1 = 10000000000000000 := by
    rw [addF, show (10000000000000000 : ℚ) + 1 = 10000000000000001 by ring]
    exact fl64_ten16_succ
  have h3 : addF (10000000000000000 : ℚ) (-10000000000000000) = 0 := by
    rw [addF, show (10000000000000000 : ℚ) + -10000000000000000 = 0 by ring]
    exact fl64_zero
  have h4 : addF 0 (1 : ℚ) = 1 := by
    rw [addF, show (0 : ℚ) + 1 = 1 by ring]
    exact fl64_one
  have h5 : addF 0 (0 : ℚ) = 0 := by
    rw [addF, show (0 : ℚ) + 0 = 0 by ring]
    exact fl64_zero
  have hAA : Json.beq (.str "A") (.str "A") = true := rfl
  have hAB : Json.beq (.str "A") (.str "B") = false := rfl
  have hBA : Json.beq (.str "B") (.str "A") = false := rfl
  refine ⟨?_, ?_, by norm_num⟩
  · simp only [BudgetTracker.balance64, List.map_cons, List.map_nil, List.foldl_cons,
      List.foldl_nil, h1, h2, h3]
  · simp only [BudgetTracker.summary64, List.foldl_cons, List.foldl_nil, dictGetD, dictGet?,
      dictSet, hAA, hAB, hBA, Bool.false_eq_true, if_false, if_true, Option.getD_none,
      Option.getD_some, h1, h3, h4, dictValues, List.map_cons, List.map_nil, sumF, h5]

/-! ### `text_histogram` -/

/-- One rendered histogram row: label, raw count, percentage of `total`,
and the length of the `#` bar.  (The row's final string interpolation is
presentation only; every datum appearing in it is a field here.) -/
structure HistLine (α : Type) where
  key : α
  count : ℕ
  pct : ℚ
  barLen : ℕ

/-- The result of `text_histogram`: the `"(no data)"` placeholder or one
row per outcome. -/
inductive HistOut (α : Type) where
  | noData
  | lines (ls : List (HistLine α))

/-- `max_count = max(counts.values()) or 1`: the largest count, with a
falsy `0` replaced by `1`.  (Counts are naturals, so the fold from `0`
computes `max` of the nonempty value list.) -/
def histMaxCount (counts : List (α × ℕ)) : ℕ :=
  let m := (dictValues counts).foldr max 0
  if m = 0 then 1 else m

/-- `text_histogram(counts, total, bar_width)`.  The keys of the tables the
program builds (`int` faces, `str` coin sides) are comparable, so
`sorted(counts)` succeeds and the `TypeError` fallback to insertion order
is dead; the model takes the comparable case.  `counts[key]` subscripts a
key drawn from the dict itself, hence present; `dictGetD … 0` returns the
stored value.  `(count / max_count) * bar_width` and `(count / total) *
100` are computed in IEEE doubles (`divF`/`mulF`); `int(...)` truncates. -/
def textHistogram [LinearOrder α] (counts : List (α × ℕ)) (total : ℤ)
    (bar_width : ℕ) : HistOut α :=
  if counts.isEmpty then .noData
  else
    let maxCount := histMaxCount counts
    let keys := pySortAsc (dictKeys counts)
    .lines (keys.map (fun k =>
      let count := dictGetD (· == ·) counts k 0
      let barLen :=
        if 0 < maxCount then (pyIntTrunc (mulF (divF (count : ℚ) maxCount) bar_width)).toNat
        else 0
      let pct := if 0 < total then mulF (divF (count : ℚ) total) 100 else 0
      ⟨k, count, pct, barLen⟩))

theorem histMaxCount_pos (counts : List (α × ℕ)) : 0 < histMaxCount counts := by
  unfold histMaxCount
  by_cases h : (dictValues counts).foldr max 0 = 0
  · simp [h]
  · simp only [h, if_false]
    omega

theorem textHistogram_lines [LinearOrder α] (counts : List (α × ℕ)) (total : ℤ) (w : ℕ)
    (hne : counts ≠ []) :
    ∃ ls, textHistogram counts total w = .lines ls ∧
      ls.length = counts.length ∧
      ∀ l ∈ ls, l.pct = (if 0 < total then mulF (divF (l.count : ℚ) total) 100 else 0) ∧
        l.barLen = (pyIntTrunc (mulF (divF (l.count : ℚ) (histMaxCount counts)) w)).toNat := by
  have hempty : counts.isEmpty = false := by
    cases counts with
    | nil => exact absurd rfl hne
    | cons hd tl => rfl
  refine ⟨_, by rw [textHistogram, hempty]; rfl, ?_, ?_⟩
  · rw [List.length_map]
    unfold pySortAsc
    rw [pySortRev_length]
    simp [dictKeys]
  · intro l hl
    obtain ⟨k, _, rfl⟩ := List.mem_map.mp hl
    dsimp only
    exact ⟨rfl, if_pos (histMaxCount_pos counts)⟩

/-- C8 (amended): `text_histogram` is total on the zero-data inputs: an
empty counts table yields the placeholder; `counts = {1: 0}` with
`total = 0` yields one line per outcome with a `0.00%` percentage, no
division by zero (the bar divisor `max(values) or 1` is always positive);
in general every rendered bar has the length of the truncated
double-precision product `int((count / max_count) * bar_width)` — which
can fall one below `round_down` of the exact product — and a percentage
that is `0` when `total` is. -/
theorem text_histogram_total_on_zero_data [LinearOrder α] (total : ℤ) (w : ℕ)
    (counts : List (α × ℕ)) (hne : counts ≠ []) :
    (textHistogram ([] : List (ℕ × ℕ)) total w = .noData) ∧
    (textHistogram [((1 : ℕ), 0)] 0 30 = .lines [⟨1, 0, 0, 0⟩]) ∧
    (0 < histMaxCount counts) ∧
    (∃ ls, textHistogram counts total w = .lines ls ∧
      ls.length = counts.length ∧
      ∀ l ∈ ls, l.pct = (if 0 < total then mulF (divF (l.count : ℚ) total) 100 else 0) ∧
        l.barLen = (pyIntTrunc (mulF (divF (l.count : ℚ) (histMaxCount counts)) w)).toNat) := by
  refine ⟨rfl, ?_, histMaxCount_pos counts, textHistogram_lines counts total w hne⟩
  norm_num [textHistogram, histMaxCount, pySortAsc, pySortRev, insertRev, dictKeys,
    dictValues, dictGetD, dictGet?, pyIntTrunc, divF, mulF, fl64_zero]

/-- Witness for C8 (amended) at `counts = {1: 0}`, `total = 0`. -/
theorem text_histogram_total_on_zero_data_witness :
    (textHistogram [((1 : ℕ), 0)] 0 30 = .lines [⟨1, 0, 0, 0⟩]) ∧
      0 < histMaxCount [((1 : ℕ), 0)] :=
  ⟨(text_histogram_total_on_zero_data 0 30 [((1 : ℕ), 0)] (by decide)).2.1,
   (text_histogram_total_on_zero_data 0 30 [((1 : ℕ), 0)] (by decide)).2.2.1⟩

/-- C8 counterexample: at `counts = {1: 15, 2: 22}`, `total = 0`,
`bar_width = 22` — a non-empty table with zero total — the program
renders outcome 1 with a 14-character bar (`int((15/22)*22)` evaluated in
doubles is `int(14.999999999999998) = 14`), while `round_down` of the
exact product `(15/22)*22 = 15` is `15`. -/
theorem text_histogram_bar_length_counterexample :
    textHistogram [((1 : ℕ), 15), (2, 22)] 0 22 =
      .lines [⟨1, 15, 0, 14⟩, ⟨2, 22, 0, 22⟩] ∧
    pyIntTrunc ((15 / 22 : ℚ) * 22) = 15 ∧ (14 : ℕ) ≠ 15 := by
  have hdiv1 : divF (15 : ℚ) 22 = 6141272219141585 / 9007199254740992 := by
    rw [divF]
    exact fl64_fifteen_22nds
  have hmul1 : mulF (6141272219141585 / 9007199254740992 : ℚ) 22 =
      8444249301319679 / 562949953421312 := by
    rw [mulF, show (6141272219141585 / 9007199254740992 : ℚ) * 22 =
      135107988821114870 / 9007199254740992 by norm_num]
    exact fl64_near_fifteen
  have hbar1 : (pyIntTrunc (mulF (divF (15 : ℚ) 22) 22)).toNat = 14 := by
    rw [hdiv1, hmul1, pyIntTrunc_eq_of_nonneg _ 14 (by norm_num) (by norm_num) (by norm_num)]
    rfl
  have hdiv2 : divF (22 : ℚ) 22 = 1 := by
    rw [divF, show (22 : ℚ) / 22 = 1 by norm_num]
    exact fl64_one
  have hmul2 : mulF (1 : ℚ) 22 = 22 := by
    rw [mulF, show (1 : ℚ) * 22 = 22 by ring]
    exact fl64_twentytwo
  have hbar2 : (pyIntTrunc (mulF (divF (22 : ℚ) 22) 22)).toNat = 22 := by
    rw [hdiv2, hmul2, pyIntTrunc_eq_of_nonneg _ 22 (by norm_num) (by norm_num) (by norm_num)]
    rfl
  refine ⟨?_, ?_, by decide⟩
  · norm_num [textHistogram, histMaxCount, pySortAsc, pySortRev, insertRev, ltB, dictKeys,
      dictValues, dictGetD, dictGet?, hbar1, hbar2]
  · rw [show (15 / 22 : ℚ) * 22 = 15 by norm_num,
      pyIntTrunc_eq_of_nonneg 15 15 (by norm_num) (by norm_num) (by norm_num)]

/-! ### `summary_stats` -/

/-- The data of a `summary_stats` report: the modes (outcomes tied for the
maximum count, in iteration order), the extreme counts, the spread, and
the mode percentage — or the `"(no data)"` indicator. -/
inductive StatsOut (α : Type) where
  | noData
  | stats (modes : List α) (maxCount minCount spread : ℕ) (modePct : ℚ)

/-- `summary_stats(counts, total)`: guarded by `not counts or total <= 0`;
otherwise reports max/min counts (of the nonempty value list), the
outcomes attaining the max, the spread `max - min`, and the mode
percentage of `total`. -/
def summaryStats (counts : List (α × ℕ)) (total : ℤ) : StatsOut α :=
  if counts.isEmpty ∨ total ≤ 0 then .noData
  else
    let values := dictValues counts
    let maxCount := values.max?.getD 0
    let minCount := values.min?.getD 0
    let modes := (counts.filter (fun kv => kv.2 == maxCount)).map Prod.fst
    .stats modes maxCount minCount (maxCount - minCount) (((maxCount : ℚ) / total) * 100)

/-! ### `expected_report` -/

/-- One tuple of the `diffs` list:
`(abs(v - expected_each), k, v - expected_each, v)`. -/
structure DiffEntry (α : Type) where
  absDiff : ℚ
  key : α
  delta : ℚ
  count : ℕ

/-- The tuple as Python compares it. -/
def entryTuple (a : DiffEntry α) : ℚ × α × ℚ × ℕ :=
  (a.absDiff, a.key, a.delta, a.count)

/-- Python `<` on the 4-tuples of `diffs`: lexicographic, component by
component. -/
def entryLt [LinearOrder α] (a b : DiffEntry α) : Bool :=
  pairLt (pairLt (pairLt ltB)) (entryTuple a) (entryTuple b)

/-- The `diffs` tuple built from one `counts` item. -/
def diffEntryOf (e : ℚ) (kv : α × ℕ) : DiffEntry α :=
  ⟨|(kv.2 : ℚ) - e|, kv.1, (kv.2 : ℚ) - e, kv.2⟩

/-- `diffs` after `diffs.sort(reverse=True)`: the tuples in stable
descending tuple order. -/
def expectedDiffs [LinearOrder α] (counts : List (α × ℕ)) (e : ℚ) : List (DiffEntry α) :=
  pySortRev entryLt (counts.map (diffEntryOf e))

/-- One emitted line of the report:
`"{i}. {k}: actual {v}, diff {delta:+.2f} ({(v/total)*100:.2f}%)"` — rank,
label, actual count, signed deviation, percentage of total. -/
structure ReportLine (α : Type) where
  rank : ℕ
  key : α
  count : ℕ
  delta : ℚ
  pct : ℚ

/-- The line built for one sorted tuple at rank `i`. -/
def lineOf (total : ℤ) (i : ℕ) (d : DiffEntry α) : ReportLine α :=
  ⟨i, d.key, d.count, d.delta, ((d.count : ℚ) / total) * 100⟩

/-- `for i, (_, k, delta, v) in enumerate(diffs[:top_n], start=1)`. -/
def reportLines (total : ℤ) : ℕ → List (DiffEntry α) → List (ReportLine α)
  | _, [] => []
  | i, d :: rest => lineOf total i d :: reportLines total (i + 1) rest

/-- `expected_report(counts, expected_each, total, top_n)`: the header data
(`expected_each` and `min(top_n, len(diffs))`) plus the emitted lines.
Each emitted line divides by `total`, so with `total = 0` the first
iteration raises `ZeroDivisionError` (`none`); with no emitted line the
division never happens. -/
def expectedReport [LinearOrder α] (counts : List (α × ℕ)) (expected_each : ℚ)
    (total : ℤ) (top_n : ℕ) : Option (ℚ × ℕ × List (ReportLine α)) :=
  let diffs := expectedDiffs counts expected_each
  let taken := diffs.take top_n
  if taken.isEmpty = false ∧ total = 0 then none
  else some (expected_each, min top_n diffs.length, reportLines total 1 taken)

theorem entryLt_asymm [LinearOrder α] (a b : DiffEntry α) (h : entryLt a b = true) :
    entryLt b a = false :=
  pairLt_asymm (pairLt (pairLt ltB))
    (fun x y hxy => pairLt_asymm (pairLt ltB)
      (fun u v huv => pairLt_asymm ltB (fun m n hmn => ltB_asymm m n hmn) u v huv)
      x y hxy)
    (entryTuple a) (entryTuple b) h

theorem entryLt_notLt_trans [LinearOrder α] (a b c : DiffEntry α)
    (hab : entryLt a b = false) (hbc : entryLt b c = false) : entryLt a c = false :=
  pairLt_notLt_trans (pairLt (pairLt ltB))
    (fun x y z hxy hyz => pairLt_notLt_trans (pairLt ltB)
      (fun u v w huv hvw => pairLt_notLt_trans ltB
        (fun m n p hmn hnp => ltB_notLt_trans m n p hmn hnp) u v w huv hvw)
      x y z hxy hyz)
    (entryTuple a) (entryTuple b) (entryTuple c) hab hbc

theorem pairLt_false_elim [LinearOrder γ] (tail : β → β → Bool) (a b : γ × β)
    (h : pairLt tail a b = false) :
    b.1 < a.1 ∨ (a.1 = b.1 ∧ tail a.2 b.2 = false) := by
  unfold pairLt at h
  by_cases h1 : a.1 < b.1
  · simp [h1] at h
  · by_cases h2 : b.1 < a.1
    · exact Or.inl h2
    · right
      refine ⟨le_antisymm (not_lt.mp h2) (not_lt.mp h1), ?_⟩
      rwa [if_neg h1, if_neg h2] at h

/-- What `x` standing no later than `y` in the descending tuple sort
means for the first two tuple components: a strictly larger absolute
deviation, or a tie on it broken by a key that is no smaller. -/
theorem entryLt_false_elim [LinearOrder α] (x y : DiffEntry α)
    (h : entryLt x y = false) :
    y.absDiff < x.absDiff ∨ (y.absDiff = x.absDiff ∧ y.key ≤ x.key) := by
  rcases pairLt_false_elim _ _ _ h with h1 | ⟨h1, h2⟩
  · exact Or.inl h1
  · rcases pairLt_false_elim _ _ _ h2 with h3 | ⟨h3, _⟩
    · exact Or.inr ⟨h1.symm, le_of_lt h3⟩
    · exact Or.inr ⟨h1.symm, le_of_eq h3.symm⟩

theorem reportLines_length (total : ℤ) (i : ℕ) (l : List (DiffEntry α)) :
    (reportLines total i l).length = l.length := by
  induction l generalizing i with
  | nil => rfl
  | cons d rest ih => simp [reportLines, ih]

theorem reportLines_ranks (total : ℤ) (i : ℕ) (l : List (DiffEntry α)) :
    (reportLines total i l).map ReportLine.rank = List.range' i l.length := by
  induction l generalizing i with
  | nil => rfl
  | cons d rest ih => simp [reportLines, lineOf, List.range'_succ, ih]

theorem reportLines_mem (total : ℤ) (i : ℕ) (l : List (DiffEntry α)) :
    ∀ x ∈ reportLines total i l, ∃ j d, d ∈ l ∧ x = lineOf total j d := by
  induction l generalizing i with
  | nil => simp [reportLines]
  | cons hd rest ih =>
      intro x hx
      rcases List.mem_cons.mp hx with rfl | hx'
      · exact ⟨i, hd, List.mem_cons_self hd rest, rfl⟩
      · obtain ⟨j, d, hd', rfl⟩ := ih (i + 1) x hx'
        exact ⟨j, d, List.mem_cons_of_mem hd hd', rfl⟩

theorem reportLines_keys (total : ℤ) (i : ℕ) (l : List (DiffEntry α)) :
    (reportLines total i l).map ReportLine.key = l.map DiffEntry.key := by
  induction l generalizing i with
  | nil => rfl
  | cons d rest ih => simp [reportLines, lineOf, ih]

theorem reportLines_pairwise (total : ℤ) (i : ℕ) (l : List (DiffEntry α))
    (R : DiffEntry α → DiffEntry α → Prop) (S : ReportLine α → ReportLine α → Prop)
    (hRS : ∀ j j' x y, R x y → S (lineOf total j x) (lineOf total j' y))
    (hl : l.Pairwise R) : (reportLines total i l).Pairwise S := by
  induction l generalizing i with
  | nil => simp [reportLines]
  | cons d rest ih =>
      rcases List.pairwise_cons.mp hl with ⟨hd, hrest⟩
      refine List.pairwise_cons.mpr ⟨?_, ih (i + 1) hrest⟩
      intro x hx
      obtain ⟨j, d', hd', rfl⟩ := reportLines_mem total (i + 1) rest x hx
      exact hRS i j d d' (hd d' hd')

/-- C7 (amended): for every non-empty count table and nonzero total,
`expected_report` emits `min(top_n, number_of_outcomes)` lines, ranked
from 1, each carrying an outcome of the table with its actual count,
signed deviation from `expected_each` and percentage of total; the lines
are sorted by absolute deviation descending, but a tie between equal
absolute deviations is broken by comparing the remaining tuple components
— in practice the outcome key — in *descending* order (the full tuples
are compared by `sort(reverse=True)`), not by the table's first-insertion
order; and every outcome left out deviates no more than any emitted one. -/
theorem expected_report_order [LinearOrder α] (counts : List (α × ℕ)) (e : ℚ)
    (total : ℤ) (n : ℕ) (htot : total ≠ 0) :
    ∃ ls, expectedReport counts e total n = some (e, min n counts.length, ls) ∧
      ls.length = min n counts.length ∧
      ls.map ReportLine.rank = List.range' 1 ls.length ∧
      ls.Pairwise (fun x y => |y.delta| < |x.delta| ∨
        (|y.delta| = |x.delta| ∧ y.key ≤ x.key)) ∧
      (∀ l ∈ ls, ∃ kv ∈ counts, l.key = kv.1 ∧ l.count = kv.2 ∧
        l.delta = (kv.2 : ℚ) - e ∧ l.pct = ((kv.2 : ℚ) / total) * 100) ∧
      (∀ l ∈ ls, ∀ kv ∈ counts, kv.1 ∉ ls.map ReportLine.key →
        entryLt ⟨|l.delta|, l.key, l.delta, l.count⟩ (diffEntryOf e kv) = false) := by
  have hlen : (expectedDiffs counts e).length = counts.length := by
    rw [expectedDiffs, pySortRev_length, List.length_map]
  have hpair : (expectedDiffs counts e).Pairwise (fun x y => entryLt x y = false) :=
    pySortRev_pairwise entryLt (fun x y h => entryLt_asymm x y h)
      (fun x y z h1 h2 => entryLt_notLt_trans x y z h1 h2) _
  have hmem : ∀ d ∈ expectedDiffs counts e, ∃ kv ∈ counts, d = diffEntryOf e kv := by
    intro d hd
    have hd' : d ∈ counts.map (diffEntryOf e) :=
      ((pySortRev_perm entryLt (counts.map (diffEntryOf e))).mem_iff).mp hd
    obtain ⟨kv, hkv, hEq⟩ := List.mem_map.mp hd'
    exact ⟨kv, hkv, hEq.symm⟩
  have hguard : ¬ ((((expectedDiffs counts e).take n).isEmpty = false) ∧ total = 0) :=
    fun h => htot h.2
  have htkl : ((expectedDiffs counts e).take n).length = min n counts.length := by
    rw [List.length_take, hlen]
  have htpair : ((expectedDiffs counts e).take n).Pairwise (fun x y => entryLt x y = false) :=
    hpair.sublist (List.take_sublist n _)
  have htmem : ∀ d ∈ (expectedDiffs counts e).take n, ∃ kv ∈ counts, d = diffEntryOf e kv :=
    fun d hd => hmem d (List.take_subset n _ hd)
  have habs : ∀ d ∈ (expectedDiffs counts e).take n, d.absDiff = |d.delta| := by
    intro d hd
    obtain ⟨kv, _, rfl⟩ := htmem d hd
    rfl
  refine ⟨reportLines total 1 ((expectedDiffs counts e).take n), ?_, ?_, ?_, ?_, ?_, ?_⟩
  · simp only [expectedReport]
    rw [if_neg hguard, hlen]
  · rw [reportLines_length, htkl]
  · rw [reportLines_ranks, reportLines_length]
  · have htpair' : ((expectedDiffs counts e).take n).Pairwise
        (fun x y => entryLt x y = false ∧ x.absDiff = |x.delta| ∧ y.absDiff = |y.delta|) :=
      htpair.imp_of_mem (fun ha hb hr => ⟨hr, habs _ ha, habs _ hb⟩)
    refine reportLines_pairwise total 1 _ _ _ ?_ htpair'
    intro j j' x y ⟨hxy, hx, hy⟩
    dsimp only [lineOf]
    rcases entryLt_false_elim x y hxy with h1 | ⟨h1, h2⟩
    · left
      rw [← hx, ← hy]
      exact h1
    · right
      exact ⟨by rw [← hx, ← hy]; exact h1, h2⟩
  · intro l hl
    obtain ⟨j, d, hd, rfl⟩ := reportLines_mem total 1 _ l hl
    obtain ⟨kv, hkv, rfl⟩ := htmem d hd
    exact ⟨kv, hkv, rfl, rfl, rfl, rfl⟩
  · intro l hl kv hkv hnot
    obtain ⟨j, d, hd, rfl⟩ := reportLines_mem total 1 _ l hl
    obtain ⟨kv', hkv', rfl⟩ := htmem d hd
    show entryLt (diffEntryOf e kv') (diffEntryOf e kv) = false
    have hkvmem : diffEntryOf e kv ∈ expectedDiffs counts e :=
      (pySortRev_perm entryLt _).mem_iff.mpr (List.mem_map_of_mem _ hkv)
    have hsplit : (expectedDiffs counts e).take n ++ (expectedDiffs counts e).drop n =
        expectedDiffs counts e := List.take_append_drop n _
    rcases List.mem_append.mp (hsplit ▸ hkvmem) with htk | hdr
    · exfalso
      apply hnot
      rw [reportLines_keys]
      exact List.mem_map_of_mem DiffEntry.key htk
    · have happ := List.pairwise_append.mp (hsplit ▸ hpair)
      exact happ.2.2 _ hd _ hdr

/-- Witness for C7 (amended) at a concrete one-outcome table. -/
theorem expected_report_order_witness :
    ∃ ls, expectedReport [((1 : ℕ), 2)] 1 2 1 = some (1, min 1 1, ls) ∧
      ls.length = min 1 1 ∧
      ls.map ReportLine.rank = List.range' 1 ls.length ∧
      ls.Pairwise (fun x y => |y.delta| < |x.delta| ∨
        (|y.delta| = |x.delta| ∧ y.key ≤ x.key)) ∧
      (∀ l ∈ ls, ∃ kv ∈ [((1 : ℕ), 2)], l.key = kv.1 ∧ l.count = kv.2 ∧
        l.delta = (kv.2 : ℚ) - 1 ∧ l.pct = ((kv.2 : ℚ) / (2 : ℤ)) * 100) ∧
      (∀ l ∈ ls, ∀ kv ∈ [((1 : ℕ), 2)], kv.1 ∉ ls.map ReportLine.key →
        entryLt ⟨|l.delta|, l.key, l.delta, l.count⟩ (diffEntryOf 1 kv) = false) :=
  expected_report_order [((1 : ℕ), 2)] 1 2 1 (by decide)

/-- C7 counterexample: for the dice table `{1: 0, 2: 2, 3: 1}` with
`expected_each = 1` (three trials, three sides), outcomes 1 and 2 tie at
absolute deviation 1; the report lists outcome 2 before outcome 1 —
`sort(reverse=True)` breaks the tie by the larger key, not by the table's
first-insertion order, which would list 1 first. -/
theorem expected_report_tiebreak_counterexample :
    (expectedReport [((1 : ℕ), 0), (2, 2), (3, 1)] 1 3 3).map
        (fun r => r.2.2.map ReportLine.key) = some [2, 1, 3] ∧
      ([2, 1, 3] : List ℕ) ≠ [1, 2, 3] := by
  constructor
  · norm_num [expectedReport, expectedDiffs, diffEntryOf, pySortRev, insertRev, entryLt,
      entryTuple, pairLt, ltB, reportLines, lineOf, reportLines_keys]
  · decide

/-- C10 counterexample: with the non-empty table `{1: 0}`, `total = 0` and
`top_n = 0`, `expected_report` emits no line, so the division by `total`
never runs and the call returns a report — it is not the case that the
function is only defined when `total != 0`. -/
theorem expected_report_zero_total_counterexample :
    expectedReport [((1 : ℕ), 0)] 0 0 0 = some (0, 0, []) := by
  rfl

/-- C10 (amended): for every non-empty count table and `top_n ≥ 1` (the
program always passes `top_n ≥ 2`), `expected_report` with `total = 0`
fails with a `ZeroDivisionError` while computing the first emitted line's
percentage — unlike `text_histogram` and `summary_stats`, which both
guard their zero-total paths (`summary_stats` returns its no-data
indicator, `text_histogram` renders every percentage as 0). -/
theorem expected_report_unguarded_zero_total [LinearOrder α] (counts : List (α × ℕ))
    (e : ℚ) (n : ℕ) (hne : counts ≠ []) (hn : 1 ≤ n) :
    expectedReport counts e 0 n = none ∧
      summaryStats counts 0 = .noData ∧
      (∃ ls, textHistogram counts 0 30 = .lines ls ∧ ∀ l ∈ ls, l.pct = 0) := by
  refine ⟨?_, ?_, ?_⟩
  · have hdne : expectedDiffs counts e ≠ [] := by
      intro h0
      apply hne
      have hc := congrArg List.length h0
      rw [expectedDiffs, pySortRev_length, List.length_map] at hc
      exact List.length_eq_zero.mp hc
    have htne : (expectedDiffs counts e).take n ≠ [] := by
      rw [ne_eq, List.take_eq_nil_iff]
      push_neg
      exact ⟨by omega, hdne⟩
    have hfalse : ((expectedDiffs counts e).take n).isEmpty = false := by
      cases hcase : (expectedDiffs counts e).take n with
      | nil => exact absurd hcase htne
      | cons a l => rfl
    simp [expectedReport, hfalse]
  · have hempty : counts.isEmpty = false := by
      cases counts with
      | nil => exact absurd rfl hne
      | cons hd tl => rfl
    simp [summaryStats, hempty]
  · obtain ⟨ls, hls, _, hprops⟩ := textHistogram_lines counts 0 30 hne
    refine ⟨ls, hls, ?_⟩
    intro l hl
    have hp := (hprops l hl).1
    simpa using hp

/-- Witness for C10 (amended) at `counts = {1: 0}`, `top_n = 1`. -/
theorem expected_report_unguarded_zero_total_witness :
    expectedReport [((1 : ℕ), 0)] 0 0 1 = none ∧
      summaryStats [((1 : ℕ), 0)] 0 = .noData ∧
      (∃ ls, textHistogram [((1 : ℕ), 0)] 0 30 = .lines ls ∧ ∀ l ∈ ls, l.pct = 0) :=
  expected_report_unguarded_zero_total [((1 : ℕ), 0)] 0 1 (by decide) (by decide)
